import Mathlib

/-!
Verification of the `w3-trace-state` TraceState engine (`src/trace_state.ts`).

JS strings are modelled as `List Char`; the regex tests, the list operations
(`some`, `find`, `filter`, spread-prepend), `String.prototype.split`,
`String.prototype.trim` and `Array.prototype.join` are embedded directly from
the source. Functions that `throw` are modelled with `Except`.
-/

namespace TraceStateSpec

/-- Entry of a TraceState: a `{ key, value }` record of strings. -/
structure Entry where
  key : List Char
  value : List Char
deriving DecidableEq, Repr

/-- TraceState, per the source: a read-only array of entries (a type alias, as
in the source). -/
abbrev TraceState := List Entry

/-- Error conditions the module throws: invalid key or invalid value. -/
inductive TraceStateError where
  | InvalidKey
  | InvalidValue
deriving DecidableEq, Repr

instance {ε α : Type} [DecidableEq ε] [DecidableEq α] : DecidableEq (Except ε α) := fun a b =>
  match a, b with
  | .ok x, .ok y =>
    if h : x = y then .isTrue (by rw [h]) else .isFalse (by intro hc; cases hc; exact h rfl)
  | .error x, .error y =>
    if h : x = y then .isTrue (by rw [h]) else .isFalse (by intro hc; cases hc; exact h rfl)
  | .ok _, .error _ => .isFalse (by intro hc; cases hc)
  | .error _, .ok _ => .isFalse (by intro hc; cases hc)

/-- Character class `lcalpha = %x61-7A` (a-z). -/
def isLcalpha (c : Char) : Bool :=
  0x61 ≤ c.toNat && c.toNat ≤ 0x7a

/-- Character class DIGIT (0-9). -/
def isDigitChar (c : Char) : Bool :=
  0x30 ≤ c.toNat && c.toNat ≤ 0x39

/-- Character class `[-a-z0-9_*/]` used by the tails of key components. -/
def isKeyTailChar (c : Char) : Bool :=
  isLcalpha c || isDigitChar c || c = '-' || c = '_' || c = '*' || c = '/'

/-- Splits a list at the first occurrence of `sep`: returns the part before it
and the part after it, or `none` when `sep` does not occur. -/
def splitAtFirst (sep : Char) : List Char → Option (List Char × List Char)
  | [] => none
  | c :: rest =>
    if c = sep then some ([], rest)
    else match splitAtFirst sep rest with
      | none => none
      | some (a, b) => some (c :: a, b)

/-- Test of `simple-key = lcalpha 0*255( lcalpha / DIGIT / "_" / "-" / "*" / "/" )`,
the first alternative of `TRACE_KEY_REGEX`. -/
def matchesSimpleKey (s : List Char) : Bool :=
  match s with
  | [] => false
  | c :: rest => isLcalpha c && rest.length ≤ 255 && rest.all isKeyTailChar

/-- Test of `tenant-id = ( lcalpha / DIGIT ) 0*240( lcalpha / DIGIT / "_" / "-" / "*" / "/" )`. -/
def matchesTenantId (s : List Char) : Bool :=
  match s with
  | [] => false
  | c :: rest => (isLcalpha c || isDigitChar c) && rest.length ≤ 240 && rest.all isKeyTailChar

/-- Test of `system-id = lcalpha 0*13( lcalpha / DIGIT / "_" / "-" / "*" / "/" )`. -/
def matchesSystemId (s : List Char) : Bool :=
  match s with
  | [] => false
  | c :: rest => isLcalpha c && rest.length ≤ 13 && rest.all isKeyTailChar

/-- Test of `multi-tenant-key = tenant-id "@" system-id`, the second alternative
of `TRACE_KEY_REGEX`. The character classes of both components exclude `@`, so
the anchored regex matches exactly when the input splits at its first `@` into a
tenant-id and a system-id. -/
def matchesMultiTenantKey (s : List Char) : Bool :=
  match splitAtFirst '@' s with
  | none => false
  | some (t, y) => matchesTenantId t && matchesSystemId y

/-- Embedding of `TRACE_KEY_REGEX.test`, the anchored regex
`^(?:(?:[a-z][-a-z0-9_*/]{0,255})|(?:[a-z0-9][-a-z0-9_*/]{0,240}@[a-z][-a-z0-9_*/]{0,13}))$`
from `src/trace_state.ts` lines 16-17. -/
def TRACE_KEY_REGEX_test (s : List Char) : Bool :=
  matchesSimpleKey s || matchesMultiTenantKey s

/-- Character class `nblk-chr = %x21-2B / %x2D-3C / %x3E-7E`. -/
def isNblkChar (c : Char) : Bool :=
  (0x21 ≤ c.toNat && c.toNat ≤ 0x2b) ||
  (0x2d ≤ c.toNat && c.toNat ≤ 0x3c) ||
  (0x3e ≤ c.toNat && c.toNat ≤ 0x7e)

/-- Character class `chr = %x20 / nblk-chr`. -/
def isValueChar (c : Char) : Bool :=
  c.toNat = 0x20 || isNblkChar c

/-- Embedding of `TRACE_VALUE_REGEX.test`, the anchored regex
`^[\x20\x21-\x2b\x2d-\x3c\x3e-\x7e]{0,255}[\x21-\x2b\x2d-\x3c\x3e-\x7e]$`
from `src/trace_state.ts` lines 26-27: at most 255 `chr` characters followed by
one `nblk-chr` character. -/
def TRACE_VALUE_REGEX_test (s : List Char) : Bool :=
  match s.getLast? with
  | none => false
  | some c => s.length ≤ 256 && s.dropLast.all isValueChar && isNblkChar c

/-- Embedding of `getEmptyTraceState`. -/
def getEmptyTraceState : TraceState := []

/-- Embedding of the helper `stateHasKey`: `traceState.some((kv) => kv.key === key)`. -/
def stateHasKey (traceState : TraceState) (key : List Char) : Bool :=
  traceState.any (fun kv => kv.key = key)

/-- Embedding of `getTraceStateValue`: validates the key (throwing
`Invalid key` otherwise) and returns the value of the first entry with that
key, or `undefined` (here `none`). -/
def getTraceStateValue (state : TraceState) (key : List Char) :
    Except TraceStateError (Option (List Char)) :=
  if TRACE_KEY_REGEX_test key then
    .ok ((state.find? (fun k => k.key = key)).map Entry.value)
  else
    .error .InvalidKey

/-- Embedding of `updateTraceStateValue`. The source validates the key and then
the value; when the key is absent it calls `addTraceStateValue` with the same
arguments, which re-validates (passing) and, the key being absent, prepends the
new entry — that mutual call is unfolded one step here; when the key is present
it prepends the new entry to `state.filter((kv) => kv.key !== validKey)`. -/
def updateTraceStateValue (state : TraceState) (key value : List Char) :
    Except TraceStateError TraceState :=
  if ¬ TRACE_KEY_REGEX_test key then .error .InvalidKey
  else if ¬ TRACE_VALUE_REGEX_test value then .error .InvalidValue
  else if ¬ stateHasKey state key then
    .ok (⟨key, value⟩ :: state)
  else
    .ok (⟨key, value⟩ :: state.filter (fun kv => kv.key ≠ key))

/-- Embedding of `addTraceStateValue`: validates the key and then the value;
when the key is already present it falls back to `updateTraceStateValue`,
otherwise it prepends `{ key, value }` to the state. -/
def addTraceStateValue (state : TraceState) (key value : List Char) :
    Except TraceStateError TraceState :=
  if ¬ TRACE_KEY_REGEX_test key then .error .InvalidKey
  else if ¬ TRACE_VALUE_REGEX_test value then .error .InvalidValue
  else if stateHasKey state key then
    updateTraceStateValue state key value
  else
    .ok (⟨key, value⟩ :: state)

/-- Embedding of `deleteTraceStateValue`: validates the key and returns
`state.filter((kv) => kv.key !== validKey)`. -/
def deleteTraceStateValue (state : TraceState) (key : List Char) :
    Except TraceStateError TraceState :=
  if TRACE_KEY_REGEX_test key then
    .ok (state.filter (fun kv => kv.key ≠ key))
  else
    .error .InvalidKey

/-- Embedding of `String.prototype.split` with a one-character separator and no
limit: `"".split(sep)` is `[""]`, and every occurrence of the separator starts a
new segment. -/
def jsSplit (sep : Char) : List Char → List (List Char)
  | [] => [[]]
  | c :: rest =>
    if c = sep then [] :: jsSplit sep rest
    else match jsSplit sep rest with
      | [] => [[c]]
      | s :: ss => (c :: s) :: ss

/-- WhiteSpace and LineTerminator code points stripped by
`String.prototype.trim` (ECMA-262 TrimString): TAB, LF, VT, FF, CR, SP, NBSP,
ZWNBSP, the Unicode Space_Separator category, LS and PS. -/
def isJsWhitespace (c : Char) : Bool :=
  c.toNat = 0x9 || c.toNat = 0xa || c.toNat = 0xb || c.toNat = 0xc ||
  c.toNat = 0xd || c.toNat = 0x20 || c.toNat = 0xa0 || c.toNat = 0x1680 ||
  (0x2000 ≤ c.toNat && c.toNat ≤ 0x200a) ||
  c.toNat = 0x2028 || c.toNat = 0x2029 || c.toNat = 0x202f ||
  c.toNat = 0x205f || c.toNat = 0x3000 || c.toNat = 0xfeff

/-- Embedding of `String.prototype.trim`: strips leading and trailing
JS whitespace. -/
def jsTrim (s : List Char) : List Char :=
  ((s.dropWhile isJsWhitespace).reverse.dropWhile isJsWhitespace).reverse

/-- Embedding of `getTraceStateFromHeader`: splits the header on `,`, keeps
the segments matching `/=/` (those containing a `=`), splits each kept segment
on `=`, destructures the first two pieces as `[key, value]` and trims both.
The segments kept contain a `=`, so their split always has at least two
pieces; the remaining match arms are unreachable. -/
def getTraceStateFromHeader (header : List Char) : TraceState :=
  ((jsSplit ',' header).filter (fun kv => kv.contains '=')).map (fun kv =>
    match jsSplit '=' kv with
    | key :: value :: _ => ⟨jsTrim key, jsTrim value⟩
    | [key] => ⟨jsTrim key, []⟩
    | [] => ⟨[], []⟩)

/-- Embedding of `Array.prototype.join(",")` over pre-rendered segments. -/
def jsJoin (sep : Char) : List (List Char) → List Char
  | [] => []
  | [s] => s
  | s :: t :: rest => s ++ sep :: jsJoin sep (t :: rest)

/-- Embedding of `getHeaderFromTraceState`:
`state.map((kv) => kv.key + "=" + kv.value).join(",")`. -/
def getHeaderFromTraceState (state : TraceState) : List Char :=
  jsJoin ',' (state.map (fun kv => kv.key ++ '=' :: kv.value))

/-- A TraceState has no duplicate keys when the list of its keys is nodup. -/
def noDupKeys (s : TraceState) : Prop :=
  (s.map Entry.key).Nodup

/-! Helper lemmas. -/

lemma stateHasKey_false_iff (s : TraceState) (k : List Char) :
    stateHasKey s k = false ↔ ∀ e ∈ s, e.key ≠ k := by
  simp [stateHasKey, List.any_eq_true]

lemma filter_ne_of_not_hasKey (s : TraceState) (k : List Char)
    (h : stateHasKey s k = false) :
    s.filter (fun kv => kv.key ≠ k) = s := by
  apply List.filter_eq_self.mpr
  intro a ha
  simpa using (stateHasKey_false_iff s k).mp h a ha

lemma countP_key_filter_ne (s : TraceState) (k : List Char) :
    (s.filter (fun kv => kv.key ≠ k)).countP (fun e => e.key = k) = 0 := by
  apply List.countP_eq_zero.mpr
  intro a ha
  simp only [List.mem_filter] at ha
  simpa using ha.2

lemma filter_ne_idem (s : TraceState) (k : List Char) :
    (s.filter (fun kv => kv.key ≠ k)).filter (fun kv => kv.key ≠ k)
      = s.filter (fun kv => kv.key ≠ k) := by
  apply List.filter_eq_self.mpr
  intro a ha
  exact (List.mem_filter.mp ha).2

lemma stateHasKey_cons_self (s : TraceState) (k v : List Char) :
    stateHasKey (⟨k, v⟩ :: s) k = true := by
  simp [stateHasKey]

lemma countP_key_eq_zero_of_not_hasKey (s : TraceState) (k : List Char)
    (h : stateHasKey s k = false) :
    s.countP (fun e => e.key = k) = 0 := by
  apply List.countP_eq_zero.mpr
  intro a ha
  simpa using (stateHasKey_false_iff s k).mp h a ha

lemma add_ok_of_hasKey {s : TraceState} {k v : List Char}
    (hk : TRACE_KEY_REGEX_test k = true) (hv : TRACE_VALUE_REGEX_test v = true)
    (hs : stateHasKey s k = true) :
    addTraceStateValue s k v = .ok (⟨k, v⟩ :: s.filter (fun kv => kv.key ≠ k)) := by
  unfold addTraceStateValue updateTraceStateValue
  simp [hk, hv, hs]

lemma add_ok_of_not_hasKey {s : TraceState} {k v : List Char}
    (hk : TRACE_KEY_REGEX_test k = true) (hv : TRACE_VALUE_REGEX_test v = true)
    (hs : stateHasKey s k = false) :
    addTraceStateValue s k v = .ok (⟨k, v⟩ :: s) := by
  unfold addTraceStateValue
  simp [hk, hv, hs]

lemma filter_ne_cons_self (s : TraceState) (k v : List Char) :
    (⟨k, v⟩ :: s).filter (fun kv => kv.key ≠ k) = s.filter (fun kv => kv.key ≠ k) := by
  simp [List.filter_cons]

/-! Claim theorems. -/

/-- C5: `addTraceStateValue` and `updateTraceStateValue` are extensionally
equal: on every state and all key/value strings they return the same result,
errors included. -/
theorem claim_C5_add_eq_update (s : TraceState) (k v : List Char) :
    addTraceStateValue s k v = updateTraceStateValue s k v := by
  unfold addTraceStateValue updateTraceStateValue
  by_cases hk : TRACE_KEY_REGEX_test k
  · by_cases hv : TRACE_VALUE_REGEX_test v
    · by_cases hs : stateHasKey s k
      · simp [hk, hv, hs, updateTraceStateValue]
      · simp [hk, hv, hs]
    · simp [hk, hv]
  · simp [hk]

/-- C4: on a state containing the key, `updateTraceStateValue` with a valid key
and value returns the new entry in front of every original entry whose key
differs, in their original relative order, and the result has exactly one entry
with that key. -/
theorem claim_C4_update_moves_to_front (s : TraceState) (k v : List Char)
    (hk : TRACE_KEY_REGEX_test k = true) (hv : TRACE_VALUE_REGEX_test v = true)
    (hs : stateHasKey s k = true) :
    updateTraceStateValue s k v = .ok (⟨k, v⟩ :: s.filter (fun kv => kv.key ≠ k)) ∧
    (⟨k, v⟩ :: s.filter (fun kv => kv.key ≠ k)).countP (fun e => e.key = k) = 1 := by
  constructor
  · unfold updateTraceStateValue
    simp [hk, hv, hs]
  · rw [List.countP_cons_of_pos _ _ (by simp), countP_key_filter_ne]

/-- C4 witness. -/
theorem claim_C4_witness :
    updateTraceStateValue [⟨"b".toList, "2".toList⟩, ⟨"a".toList, "1".toList⟩]
        "a".toList "3".toList
      = .ok [⟨"a".toList, "3".toList⟩, ⟨"b".toList, "2".toList⟩] := by
  have h := claim_C4_update_moves_to_front
    [⟨"b".toList, "2".toList⟩, ⟨"a".toList, "1".toList⟩] "a".toList "3".toList
    (by decide) (by decide) (by decide)
  exact h.1

/-- C9: `deleteTraceStateValue` with a valid key removes exactly the entries
with that key, preserving the order of the rest; it is the identity when the
key is absent, and it errors exactly when the key is grammar-invalid. -/
theorem claim_C9_delete (s : TraceState) (k : List Char) :
    (TRACE_KEY_REGEX_test k = true →
      deleteTraceStateValue s k = .ok (s.filter (fun kv => kv.key ≠ k)) ∧
      (stateHasKey s k = false → deleteTraceStateValue s k = .ok s)) ∧
    (TRACE_KEY_REGEX_test k = false →
      deleteTraceStateValue s k = .error .InvalidKey) := by
  constructor
  · intro hk
    constructor
    · unfold deleteTraceStateValue
      simp [hk]
    · intro habs
      unfold deleteTraceStateValue
      rw [if_pos hk, filter_ne_of_not_hasKey s k habs]
  · intro hk
    unfold deleteTraceStateValue
    simp [hk]

/-- C9 witness. -/
theorem claim_C9_witness :
    deleteTraceStateValue [⟨"a".toList, "1".toList⟩] "b".toList
      = .ok [⟨"a".toList, "1".toList⟩] :=
  ((claim_C9_delete [⟨"a".toList, "1".toList⟩] "b".toList).1 (by decide)).2 (by decide)

/-- C6: `addTraceStateValue` is idempotent: on a duplicate-free state with a
valid key and value, adding the same pair twice yields the same state as adding
it once, which has exactly one entry for the key, at the front. -/
theorem claim_C6_add_idempotent (s : TraceState) (k v : List Char)
    (_hnd : noDupKeys s)
    (hk : TRACE_KEY_REGEX_test k = true) (hv : TRACE_VALUE_REGEX_test v = true) :
    ∃ t, addTraceStateValue s k v = .ok t ∧ addTraceStateValue t k v = .ok t ∧
      t.countP (fun e => e.key = k) = 1 ∧ t.head? = some ⟨k, v⟩ := by
  by_cases hs : stateHasKey s k
  · refine ⟨⟨k, v⟩ :: s.filter (fun kv => kv.key ≠ k),
      add_ok_of_hasKey hk hv hs, ?_, ?_, rfl⟩
    · rw [add_ok_of_hasKey hk hv (stateHasKey_cons_self _ k v),
        filter_ne_cons_self, filter_ne_idem]
    · rw [List.countP_cons_of_pos _ _ (by simp), countP_key_filter_ne]
  · rw [Bool.not_eq_true] at hs
    refine ⟨⟨k, v⟩ :: s, add_ok_of_not_hasKey hk hv hs, ?_, ?_, rfl⟩
    · rw [add_ok_of_hasKey hk hv (stateHasKey_cons_self _ k v),
        filter_ne_cons_self, filter_ne_of_not_hasKey s k hs]
    · rw [List.countP_cons_of_pos _ _ (by simp),
        countP_key_eq_zero_of_not_hasKey s k hs]

/-- C6 witness. -/
theorem claim_C6_witness :
    ∃ t, addTraceStateValue [⟨"a".toList, "1".toList⟩] "b".toList "2".toList = .ok t ∧
      addTraceStateValue t "b".toList "2".toList = .ok t ∧
      t.countP (fun e => e.key = "b".toList) = 1 ∧
      t.head? = some ⟨"b".toList, "2".toList⟩ :=
  claim_C6_add_idempotent [⟨"a".toList, "1".toList⟩] "b".toList "2".toList
    (by simp [noDupKeys]) (by decide) (by decide)

lemma mem_of_mem_jsSplit (sep : Char) :
    ∀ (h : List Char), ∀ seg ∈ jsSplit sep h, ∀ c ∈ seg, c ∈ h
  | [] => by
    intro seg hseg c hc
    simp only [jsSplit, List.mem_singleton] at hseg
    subst hseg
    simp at hc
  | a :: rest => by
    intro seg hseg c hc
    by_cases ha : a = sep
    · rw [show jsSplit sep (a :: rest) = [] :: jsSplit sep rest by
          simp [jsSplit, ha]] at hseg
      rcases List.mem_cons.mp hseg with h1 | h1
      · subst h1; simp at hc
      · exact List.mem_cons_of_mem _ (mem_of_mem_jsSplit sep rest seg h1 c hc)
    · cases hrec : jsSplit sep rest with
      | nil =>
        rw [show jsSplit sep (a :: rest) = [[a]] by
            simp [jsSplit, ha, hrec]] at hseg
        simp only [List.mem_singleton] at hseg
        subst hseg
        simp only [List.mem_singleton] at hc
        subst hc
        exact List.mem_cons_self _ _
      | cons s ss =>
        rw [show jsSplit sep (a :: rest) = (a :: s) :: ss by
            simp [jsSplit, ha, hrec]] at hseg
        rcases List.mem_cons.mp hseg with h1 | h1
        · subst h1
          rcases List.mem_cons.mp hc with h2 | h2
          · subst h2; exact List.mem_cons_self _ _
          · exact List.mem_cons_of_mem _
              (mem_of_mem_jsSplit sep rest s (by rw [hrec]; exact List.mem_cons_self _ _) c h2)
        · exact List.mem_cons_of_mem _
            (mem_of_mem_jsSplit sep rest seg (by rw [hrec]; exact List.mem_cons_of_mem _ h1) c hc)

/-- C8: `getTraceStateFromHeader` is a total function (its type in this
embedding: it throws nothing), and on an empty or all-whitespace header it
returns the empty TraceState. -/
theorem claim_C8_parse_total_whitespace (h : List Char)
    (hws : ∀ c ∈ h, isJsWhitespace c = true) :
    getTraceStateFromHeader h = [] := by
  unfold getTraceStateFromHeader
  have hfil : (jsSplit ',' h).filter (fun kv => kv.contains '=') = [] := by
    apply List.filter_eq_nil.mpr
    intro seg hseg
    simp only [Bool.not_eq_true]
    have hnotmem : '=' ∉ seg := fun hmem =>
      absurd (hws '=' (mem_of_mem_jsSplit ',' h seg hseg '=' hmem)) (by decide)
    simpa using hnotmem
  rw [hfil]
  rfl

/-- C8 witness. -/
theorem claim_C8_witness :
    getTraceStateFromHeader "   ".toList = [] :=
  claim_C8_parse_total_whitespace "   ".toList (by decide)

/-- C7 claim-side description of simple-key: one lowercase ASCII letter
followed by 0-255 characters from the key tail class, total length 1-256. -/
def simpleKeySpec (s : List Char) : Prop :=
  ∃ c cs, s = c :: cs ∧ isLcalpha c = true ∧ cs.length ≤ 255 ∧
    ∀ x ∈ cs, isKeyTailChar x = true

/-- C7 claim-side description of tenant-id: one character from `[a-z0-9]`
followed by 0-240 characters from the key tail class. -/
def tenantIdSpec (t : List Char) : Prop :=
  ∃ c cs, t = c :: cs ∧ (isLcalpha c || isDigitChar c) = true ∧ cs.length ≤ 240 ∧
    ∀ x ∈ cs, isKeyTailChar x = true

/-- C7 claim-side description of system-id: one lowercase letter followed by
0-13 characters from the key tail class. -/
def systemIdSpec (y : List Char) : Prop :=
  ∃ c cs, y = c :: cs ∧ isLcalpha c = true ∧ cs.length ≤ 13 ∧
    ∀ x ∈ cs, isKeyTailChar x = true

/-- C7 claim-side description of multi-tenant-key: a tenant-id, a literal `@`,
then a system-id. -/
def multiTenantKeySpec (s : List Char) : Prop :=
  ∃ t y, s = t ++ '@' :: y ∧ tenantIdSpec t ∧ systemIdSpec y

lemma matchesSimpleKey_iff (s : List Char) :
    matchesSimpleKey s = true ↔ simpleKeySpec s := by
  cases s with
  | nil => simp [matchesSimpleKey, simpleKeySpec]
  | cons c cs =>
    simp only [matchesSimpleKey, Bool.and_eq_true, List.all_eq_true]
    constructor
    · rintro ⟨⟨h1, h2⟩, h3⟩
      exact ⟨c, cs, rfl, h1, by simpa using h2, h3⟩
    · rintro ⟨c', cs', heq, h1, h2, h3⟩
      cases heq
      exact ⟨⟨h1, by simpa using h2⟩, h3⟩

lemma matchesTenantId_iff (t : List Char) :
    matchesTenantId t = true ↔ tenantIdSpec t := by
  cases t with
  | nil => simp [matchesTenantId, tenantIdSpec]
  | cons c cs =>
    simp only [matchesTenantId, Bool.and_eq_true, List.all_eq_true]
    constructor
    · rintro ⟨⟨h1, h2⟩, h3⟩
      exact ⟨c, cs, rfl, h1, by simpa using h2, h3⟩
    · rintro ⟨c', cs', heq, h1, h2, h3⟩
      cases heq
      exact ⟨⟨h1, by simpa using h2⟩, h3⟩

lemma matchesSystemId_iff (y : List Char) :
    matchesSystemId y = true ↔ systemIdSpec y := by
  cases y with
  | nil => simp [matchesSystemId, systemIdSpec]
  | cons c cs =>
    simp only [matchesSystemId, Bool.and_eq_true, List.all_eq_true]
    constructor
    · rintro ⟨⟨h1, h2⟩, h3⟩
      exact ⟨c, cs, rfl, h1, by simpa using h2, h3⟩
    · rintro ⟨c', cs', heq, h1, h2, h3⟩
      cases heq
      exact ⟨⟨h1, by simpa using h2⟩, h3⟩

lemma isKeyTailChar_ne_at {c : Char} (h : isKeyTailChar c = true) : c ≠ '@' := by
  intro he
  subst he
  exact absurd h (by decide)

lemma matchesTenantId_no_at {t : List Char} (h : matchesTenantId t = true) :
    '@' ∉ t := by
  cases t with
  | nil => simp
  | cons c cs =>
    simp only [matchesTenantId, Bool.and_eq_true, List.all_eq_true] at h
    intro hmem
    rcases List.mem_cons.mp hmem with h1 | h1
    · obtain ⟨⟨hc, _⟩, _⟩ := h
      rw [← h1] at hc
      exact absurd hc (by decide)
    · exact isKeyTailChar_ne_at (h.2 _ h1) rfl

lemma splitAtFirst_eq_some (sep : Char) :
    ∀ {s a b : List Char}, splitAtFirst sep s = some (a, b) → s = a ++ sep :: b := by
  intro s
  induction s with
  | nil => intro a b h; simp [splitAtFirst] at h
  | cons c rest ih =>
    intro a b h
    by_cases hc : c = sep
    · rw [show splitAtFirst sep (c :: rest) = some ([], rest) by
          simp [splitAtFirst, hc]] at h
      cases h
      simp [hc]
    · cases hrec : splitAtFirst sep rest with
      | none =>
        rw [show splitAtFirst sep (c :: rest) = none by
            simp [splitAtFirst, hc, hrec]] at h
        cases h
      | some p =>
        rw [show splitAtFirst sep (c :: rest) = some (c :: p.1, p.2) by
            simp [splitAtFirst, hc, hrec]] at h
        cases h
        have := ih hrec
        simp [this]

lemma splitAtFirst_append (sep : Char) :
    ∀ (t y : List Char), sep ∉ t → splitAtFirst sep (t ++ sep :: y) = some (t, y) := by
  intro t
  induction t with
  | nil => intro y _; simp [splitAtFirst]
  | cons c cs ih =>
    intro y hmem
    have hc : ¬ c = sep := fun he => hmem (by rw [he]; exact List.mem_cons_self _ _)
    have hcs : sep ∉ cs := fun hm => hmem (List.mem_cons_of_mem _ hm)
    simp only [List.cons_append, splitAtFirst, if_neg hc, List.append_eq]
    rw [ih y hcs]

lemma matchesMultiTenantKey_iff (s : List Char) :
    matchesMultiTenantKey s = true ↔ multiTenantKeySpec s := by
  constructor
  · intro h
    unfold matchesMultiTenantKey at h
    cases hsp : splitAtFirst '@' s with
    | none => rw [hsp] at h; cases h
    | some p =>
      rw [hsp, Bool.and_eq_true] at h
      obtain ⟨ht, hy⟩ := h
      exact ⟨p.1, p.2, splitAtFirst_eq_some '@' hsp,
        (matchesTenantId_iff p.1).mp ht, (matchesSystemId_iff p.2).mp hy⟩
  · rintro ⟨t, y, rfl, ht, hy⟩
    have ht' : matchesTenantId t = true := (matchesTenantId_iff t).mpr ht
    have hy' : matchesSystemId y = true := (matchesSystemId_iff y).mpr hy
    unfold matchesMultiTenantKey
    rw [splitAtFirst_append '@' t y (matchesTenantId_no_at ht')]
    simp [ht', hy']

/-- C7: the key validator accepts exactly the simple-keys and the
multi-tenant-keys, and every operation rejects any other key string with the
invalid-key error. -/
theorem claim_C7_key_validator (s : TraceState) (k v : List Char) :
    (TRACE_KEY_REGEX_test k = true ↔ simpleKeySpec k ∨ multiTenantKeySpec k) ∧
    (¬ (simpleKeySpec k ∨ multiTenantKeySpec k) →
      getTraceStateValue s k = .error .InvalidKey ∧
      addTraceStateValue s k v = .error .InvalidKey ∧
      updateTraceStateValue s k v = .error .InvalidKey ∧
      deleteTraceStateValue s k = .error .InvalidKey) := by
  have hiff : TRACE_KEY_REGEX_test k = true ↔ simpleKeySpec k ∨ multiTenantKeySpec k := by
    unfold TRACE_KEY_REGEX_test
    rw [Bool.or_eq_true, matchesSimpleKey_iff, matchesMultiTenantKey_iff]
  refine ⟨hiff, fun hrej => ?_⟩
  have hk : TRACE_KEY_REGEX_test k = false := by
    rw [← Bool.not_eq_true]
    exact fun h => hrej (hiff.mp h)
  refine ⟨?_, ?_, ?_, ?_⟩
  · unfold getTraceStateValue; simp [hk]
  · unfold addTraceStateValue; simp [hk]
  · unfold updateTraceStateValue; simp [hk]
  · unfold deleteTraceStateValue; simp [hk]

/-- C7 witness: the uppercase key is rejected by every operation. -/
theorem claim_C7_witness :
    getTraceStateValue [] "Key".toList = .error .InvalidKey ∧
    addTraceStateValue [] "Key".toList "v".toList = .error .InvalidKey ∧
    updateTraceStateValue [] "Key".toList "v".toList = .error .InvalidKey ∧
    deleteTraceStateValue [] "Key".toList = .error .InvalidKey :=
  (claim_C7_key_validator [] "Key".toList "v".toList).2 (by
    intro h
    have := (claim_C7_key_validator [] "Key".toList "v".toList).1.mpr h
    exact absurd this (by decide))

/-- C1 claim-side character class, as the specification words it: printable
ASCII (0x20-0x7e) excluding comma, with equals allowed. -/
def specValueChar (c : Char) : Bool :=
  (0x20 ≤ c.toNat && c.toNat ≤ 0x7e) && c.toNat ≠ 0x2c

/-- C1 claim-side value language, as the specification words it: length 1-256,
every character printable ASCII excluding comma (equals allowed), final
character not a space. -/
def specValueAccepts (s : List Char) : Prop :=
  1 ≤ s.length ∧ s.length ≤ 256 ∧ (∀ c ∈ s, specValueChar c = true) ∧
    s.getLast? ≠ some ' '

/-- Amended character class: printable ASCII excluding both comma and equals,
matching `chr` of the source regex. -/
def amendedValueChar (c : Char) : Bool :=
  (0x20 ≤ c.toNat && c.toNat ≤ 0x7e) && c.toNat ≠ 0x2c && c.toNat ≠ 0x3d

/-- Amended value language: length 1-256, every character printable ASCII
excluding comma and equals, final character not a space. -/
def amendedValueAccepts (s : List Char) : Prop :=
  1 ≤ s.length ∧ s.length ≤ 256 ∧ (∀ c ∈ s, amendedValueChar c = true) ∧
    s.getLast? ≠ some ' '

lemma isValueChar_iff_amended (c : Char) :
    isValueChar c = true ↔ amendedValueChar c = true := by
  simp only [isValueChar, isNblkChar, amendedValueChar, Bool.or_eq_true,
    Bool.and_eq_true, decide_eq_true_eq]
  omega

lemma isNblkChar_iff_amended (c : Char) :
    isNblkChar c = true ↔ (amendedValueChar c = true ∧ c.toNat ≠ 0x20) := by
  simp only [isNblkChar, amendedValueChar, Bool.or_eq_true, Bool.and_eq_true,
    decide_eq_true_eq]
  omega

lemma char_eq_space_of_toNat (c : Char) (h : c.toNat = 0x20) : c = ' ' :=
  Char.ext (UInt32.toNat.inj (by simpa using h))

lemma TRACE_VALUE_iff_amended (v : List Char) :
    TRACE_VALUE_REGEX_test v = true ↔ amendedValueAccepts v := by
  constructor
  · intro h
    unfold TRACE_VALUE_REGEX_test at h
    cases hlast : v.getLast? with
    | none => rw [hlast] at h; cases h
    | some c =>
      rw [hlast] at h
      simp only [Bool.and_eq_true, decide_eq_true_eq] at h
      obtain ⟨⟨hlen, hall⟩, hnblk⟩ := h
      have hcv : c ∈ v.getLast? := by rw [hlast]; rfl
      obtain ⟨hne, hceq⟩ := List.mem_getLast?_eq_getLast hcv
      have hsplit : v.dropLast ++ [c] = v := by
        rw [hceq]; exact List.dropLast_append_getLast hne
      refine ⟨?_, hlen, ?_, ?_⟩
      · have := List.length_pos.mpr hne; omega
      · intro x hx
        rw [← hsplit] at hx
        rcases List.mem_append.mp hx with h1 | h1
        · exact (isValueChar_iff_amended x).mp (List.all_eq_true.mp hall x h1)
        · rw [List.mem_singleton.mp h1]
          exact ((isNblkChar_iff_amended c).mp hnblk).1
      · rw [hlast]
        intro he
        have hsp : c = ' ' := by injection he
        exact ((isNblkChar_iff_amended c).mp hnblk).2 (by rw [hsp]; rfl)
  · rintro ⟨h1, h2, h3, h4⟩
    have hne : v ≠ [] := by intro he; subst he; simp at h1
    have hlast := List.getLast?_eq_getLast v hne
    unfold TRACE_VALUE_REGEX_test
    rw [hlast]
    simp only [Bool.and_eq_true, decide_eq_true_eq]
    refine ⟨⟨h2, ?_⟩, ?_⟩
    · apply List.all_eq_true.mpr
      intro x hx
      exact (isValueChar_iff_amended x).mpr (h3 x ((List.dropLast_sublist v).subset hx))
    · apply (isNblkChar_iff_amended (v.getLast hne)).mpr
      refine ⟨h3 _ (List.getLast_mem hne), fun htn => ?_⟩
      exact h4 (by rw [hlast]; exact congrArg some (char_eq_space_of_toNat _ htn))

/-- C1 counterexample: the one-character string `=` is in the claim-side value
language (printable ASCII, not a comma, not a trailing space) but the source
regex rejects it, and `addTraceStateValue` throws `InvalidValue` on it. -/
theorem claim_C1_counterexample :
    specValueAccepts "=".toList ∧ TRACE_VALUE_REGEX_test "=".toList = false ∧
    addTraceStateValue [] "a".toList "=".toList = .error .InvalidValue := by
  refine ⟨⟨by decide, by decide, by decide, by decide⟩, by decide, by decide⟩

/-- C1 (amended): the value validator accepts exactly the strings of length
1-256 of printable ASCII excluding comma and equals whose final character is
not a space, and on any other value string (with a valid key) `add` and
`update` throw `InvalidValue`. -/
theorem claim_C1_value_validator (s : TraceState) (k v : List Char) :
    (TRACE_VALUE_REGEX_test v = true ↔ amendedValueAccepts v) ∧
    (¬ amendedValueAccepts v → TRACE_KEY_REGEX_test k = true →
      addTraceStateValue s k v = .error .InvalidValue ∧
      updateTraceStateValue s k v = .error .InvalidValue) := by
  refine ⟨TRACE_VALUE_iff_amended v, fun hrej hk => ?_⟩
  have hv : TRACE_VALUE_REGEX_test v = false := by
    rw [← Bool.not_eq_true]
    exact fun h => hrej ((TRACE_VALUE_iff_amended v).mp h)
  constructor
  · unfold addTraceStateValue; simp [hk, hv]
  · unfold updateTraceStateValue; simp [hk, hv]

/-- C1 witness: a value with a trailing space is rejected by add and update. -/
theorem claim_C1_witness :
    addTraceStateValue [] "a".toList "v ".toList = .error .InvalidValue ∧
    updateTraceStateValue [] "a".toList "v ".toList = .error .InvalidValue :=
  (claim_C1_value_validator [] "a".toList "v ".toList).2 (by
    intro h
    have := (claim_C1_value_validator [] "a".toList "v ".toList).1.mpr h
    exact absurd this (by decide)) (by decide)

lemma update_ok_of_hasKey {s : TraceState} {k v : List Char}
    (hk : TRACE_KEY_REGEX_test k = true) (hv : TRACE_VALUE_REGEX_test v = true)
    (hs : stateHasKey s k = true) :
    updateTraceStateValue s k v = .ok (⟨k, v⟩ :: s.filter (fun kv => kv.key ≠ k)) := by
  unfold updateTraceStateValue
  simp [hk, hv, hs]

lemma update_ok_of_not_hasKey {s : TraceState} {k v : List Char}
    (hk : TRACE_KEY_REGEX_test k = true) (hv : TRACE_VALUE_REGEX_test v = true)
    (hs : stateHasKey s k = false) :
    updateTraceStateValue s k v = .ok (⟨k, v⟩ :: s) := by
  unfold updateTraceStateValue
  simp [hk, hv, hs]

lemma update_error_key {s : TraceState} {k v : List Char}
    (hk : TRACE_KEY_REGEX_test k = false) :
    updateTraceStateValue s k v = .error .InvalidKey := by
  unfold updateTraceStateValue
  simp [hk]

lemma update_error_value {s : TraceState} {k v : List Char}
    (hk : TRACE_KEY_REGEX_test k = true) (hv : TRACE_VALUE_REGEX_test v = false) :
    updateTraceStateValue s k v = .error .InvalidValue := by
  unfold updateTraceStateValue
  simp [hk, hv]

lemma add_error_key {s : TraceState} {k v : List Char}
    (hk : TRACE_KEY_REGEX_test k = false) :
    addTraceStateValue s k v = .error .InvalidKey := by
  unfold addTraceStateValue
  simp [hk]

lemma add_error_value {s : TraceState} {k v : List Char}
    (hk : TRACE_KEY_REGEX_test k = true) (hv : TRACE_VALUE_REGEX_test v = false) :
    addTraceStateValue s k v = .error .InvalidValue := by
  unfold addTraceStateValue
  simp [hk, hv]

lemma update_ok_shape {s t : TraceState} {k v : List Char}
    (h : updateTraceStateValue s k v = .ok t) :
    (stateHasKey s k = false ∧ t = ⟨k, v⟩ :: s) ∨
      t = ⟨k, v⟩ :: s.filter (fun kv => kv.key ≠ k) := by
  by_cases hk : TRACE_KEY_REGEX_test k
  · by_cases hv : TRACE_VALUE_REGEX_test v
    · by_cases hs : stateHasKey s k
      · rw [update_ok_of_hasKey hk hv hs] at h
        exact Or.inr (Except.ok.inj h).symm
      · rw [Bool.not_eq_true] at hs
        rw [update_ok_of_not_hasKey hk hv hs] at h
        exact Or.inl ⟨hs, (Except.ok.inj h).symm⟩
    · rw [Bool.not_eq_true] at hv
      rw [update_error_value hk hv] at h
      cases h
  · rw [Bool.not_eq_true] at hk
    rw [update_error_key hk] at h
    cases h

lemma add_ok_shape {s t : TraceState} {k v : List Char}
    (h : addTraceStateValue s k v = .ok t) :
    (stateHasKey s k = false ∧ t = ⟨k, v⟩ :: s) ∨
      t = ⟨k, v⟩ :: s.filter (fun kv => kv.key ≠ k) := by
  by_cases hk : TRACE_KEY_REGEX_test k
  · by_cases hv : TRACE_VALUE_REGEX_test v
    · by_cases hs : stateHasKey s k
      · rw [add_ok_of_hasKey hk hv hs] at h
        exact Or.inr (Except.ok.inj h).symm
      · rw [Bool.not_eq_true] at hs
        rw [add_ok_of_not_hasKey hk hv hs] at h
        exact Or.inl ⟨hs, (Except.ok.inj h).symm⟩
    · rw [Bool.not_eq_true] at hv
      rw [add_error_value hk hv] at h
      cases h
  · rw [Bool.not_eq_true] at hk
    rw [add_error_key hk] at h
    cases h

lemma delete_ok_shape {s t : TraceState} {k : List Char}
    (h : deleteTraceStateValue s k = .ok t) :
    t = s.filter (fun kv => kv.key ≠ k) := by
  unfold deleteTraceStateValue at h
  by_cases hk : TRACE_KEY_REGEX_test k
  · simp only [hk, if_true] at h
    exact (Except.ok.inj h).symm
  · simp [hk] at h

lemma noDupKeys_filter (s : TraceState) (p : Entry → Bool) (hnd : noDupKeys s) :
    noDupKeys (s.filter p) :=
  ((List.filter_sublist s).map Entry.key).nodup hnd

lemma noDupKeys_cons_filter (s : TraceState) (k v : List Char) (hnd : noDupKeys s) :
    noDupKeys (⟨k, v⟩ :: s.filter (fun kv => kv.key ≠ k)) := by
  apply List.nodup_cons.mpr
  constructor
  · intro hmem
    obtain ⟨e, he, hek⟩ := List.mem_map.mp hmem
    have h2 := (List.mem_filter.mp he).2
    simp only [decide_eq_true_eq] at h2
    exact h2 hek
  · exact noDupKeys_filter s _ hnd

lemma noDupKeys_cons_of_not_hasKey (s : TraceState) (k v : List Char)
    (hs : stateHasKey s k = false) (hnd : noDupKeys s) :
    noDupKeys (⟨k, v⟩ :: s) := by
  apply List.nodup_cons.mpr
  refine ⟨?_, hnd⟩
  intro hmem
  obtain ⟨e, he, hek⟩ := List.mem_map.mp hmem
  exact (stateHasKey_false_iff s k).mp hs e he hek

/-- C3 counterexample: on a state that already carries a duplicate key (as a
parsed header can), `deleteTraceStateValue` of an absent key returns that state
unchanged, duplicate included — so the output of delete is not always
duplicate-free. -/
theorem claim_C3_counterexample :
    deleteTraceStateValue
        [⟨"a".toList, "1".toList⟩, ⟨"a".toList, "2".toList⟩] "b".toList
      = .ok [⟨"a".toList, "1".toList⟩, ⟨"a".toList, "2".toList⟩] ∧
    ¬ noDupKeys [⟨"a".toList, "1".toList⟩, ⟨"a".toList, "2".toList⟩] :=
  ⟨by decide, by unfold noDupKeys; decide⟩

/-- C3 (amended): on a duplicate-free state, every state successfully returned
by `add`, `update` or `delete` is duplicate-free; in particular the operated
key occurs at most once in the result. -/
theorem claim_C3_no_dup_keys (s : TraceState) (k v : List Char)
    (hnd : noDupKeys s) :
    (∀ t, addTraceStateValue s k v = .ok t → noDupKeys t) ∧
    (∀ t, updateTraceStateValue s k v = .ok t → noDupKeys t) ∧
    (∀ t, deleteTraceStateValue s k = .ok t → noDupKeys t) := by
  refine ⟨?_, ?_, ?_⟩
  · intro t ht
    rcases add_ok_shape ht with ⟨hs, rfl⟩ | rfl
    · exact noDupKeys_cons_of_not_hasKey s k v hs hnd
    · exact noDupKeys_cons_filter s k v hnd
  · intro t ht
    rcases update_ok_shape ht with ⟨hs, rfl⟩ | rfl
    · exact noDupKeys_cons_of_not_hasKey s k v hs hnd
    · exact noDupKeys_cons_filter s k v hnd
  · intro t ht
    rw [delete_ok_shape ht]
    exact noDupKeys_filter s _ hnd

/-- C3 witness. -/
theorem claim_C3_witness :
    noDupKeys [Entry.mk "b".toList "2".toList, Entry.mk "a".toList "1".toList] :=
  (claim_C3_no_dup_keys [⟨"a".toList, "1".toList⟩] "b".toList "2".toList
    (by simp [noDupKeys])).1
    [⟨"b".toList, "2".toList⟩, ⟨"a".toList, "1".toList⟩] (by decide)

/-- C2 claim-side character class: space or horizontal tab, the OWS characters
the specification says are trimmed. -/
def isSpTab (c : Char) : Bool :=
  c = ' ' || c = '\t'

/-- C2 claim-side trim: strips leading/trailing spaces and horizontal tabs. -/
def trimSpTab (s : List Char) : List Char :=
  ((s.dropWhile isSpTab).reverse.dropWhile isSpTab).reverse

/-- C2 claim-side parse, as the specification words it: split on comma,
discard candidates without an equals sign, key is the text before the first
equals, value is the entire text after the first equals, both trimmed of
spaces and tabs. -/
def specParseHeader (header : List Char) : TraceState :=
  ((jsSplit ',' header).filter (fun kv => kv.contains '=')).map (fun kv =>
    match splitAtFirst '=' kv with
    | some (k, v) => ⟨trimSpTab k, trimSpTab v⟩
    | none => ⟨trimSpTab kv, []⟩)

/-- Amended parse description: the value of a candidate is the text strictly
between the first equals sign and the following equals sign (or the end of the
candidate), and trimming strips all JS whitespace, not just space and tab. -/
def amendedParseHeader (header : List Char) : TraceState :=
  ((jsSplit ',' header).filter (fun kv => kv.contains '=')).map (fun kv =>
    match splitAtFirst '=' kv with
    | some (k, rest) =>
      ⟨jsTrim k,
        jsTrim (match splitAtFirst '=' rest with
          | some (v, _) => v
          | none => rest)⟩
    | none => ⟨jsTrim kv, []⟩)

lemma splitAtFirst_eq_none_iff (sep : Char) (s : List Char) :
    splitAtFirst sep s = none ↔ sep ∉ s := by
  induction s with
  | nil => simp [splitAtFirst]
  | cons c rest ih =>
    by_cases hc : c = sep
    · subst hc
      simp [splitAtFirst]
    · cases hsp : splitAtFirst sep rest with
      | none =>
        have h1 : sep ∉ rest := ih.mp hsp
        have h2 : ¬ sep = c := fun h => hc h.symm
        simp [splitAtFirst, if_neg hc, hsp, h1, h2]
      | some p =>
        obtain ⟨p1, p2⟩ := p
        have h1 : sep ∈ rest := by
          by_contra hno
          rw [ih.mpr hno] at hsp
          cases hsp
        simp [splitAtFirst, if_neg hc, hsp, h1]

lemma jsSplit_eq_splitAtFirst (sep : Char) (s : List Char) :
    jsSplit sep s = match splitAtFirst sep s with
      | none => [s]
      | some (a, b) => a :: jsSplit sep b := by
  induction s with
  | nil => simp [jsSplit, splitAtFirst]
  | cons c rest ih =>
    by_cases hc : c = sep
    · subst hc
      simp [jsSplit, splitAtFirst]
    · cases hsp : splitAtFirst sep rest with
      | none =>
        have hrest : jsSplit sep rest = [rest] := by rw [ih, hsp]
        simp [jsSplit, splitAtFirst, if_neg hc, hsp, hrest]
      | some p =>
        obtain ⟨p1, p2⟩ := p
        have hrest : jsSplit sep rest = p1 :: jsSplit sep p2 := by rw [ih, hsp]
        simp [jsSplit, splitAtFirst, if_neg hc, hsp, hrest]

lemma jsSplit_of_not_mem (sep : Char) (s : List Char) (h : sep ∉ s) :
    jsSplit sep s = [s] := by
  rw [jsSplit_eq_splitAtFirst, (splitAtFirst_eq_none_iff sep s).mpr h]

lemma jsSplit_of_splitAtFirst (sep : Char) {s a b : List Char}
    (h : splitAtFirst sep s = some (a, b)) :
    jsSplit sep s = a :: jsSplit sep b := by
  rw [jsSplit_eq_splitAtFirst, h]

/-- C2 counterexample: on `a=b=c` the implementation takes only the text
between the first and second equals as the value, where the claim takes the
entire remainder; and on a linefeed after the equals the implementation trims
it, where the claim trims only spaces and tabs. -/
theorem claim_C2_counterexample :
    getTraceStateFromHeader "a=b=c".toList = [⟨"a".toList, "b".toList⟩] ∧
    specParseHeader "a=b=c".toList = [⟨"a".toList, "b=c".toList⟩] ∧
    getTraceStateFromHeader "k=\nv".toList = [⟨"k".toList, "v".toList⟩] ∧
    specParseHeader "k=\nv".toList = [⟨"k".toList, "\nv".toList⟩] :=
  ⟨by decide, by decide, by decide, by decide⟩

/-- C2 (amended): `getTraceStateFromHeader` splits the header on comma,
discards candidates without an equals sign, and maps each remaining candidate
to the entry whose key is the text before the first equals and whose value is
the text strictly between the first equals and the next equals (or the end of
the candidate), both trimmed of leading and trailing JS whitespace, in
left-to-right input order. -/
theorem claim_C2_parse_refinement (header : List Char) :
    getTraceStateFromHeader header = amendedParseHeader header := by
  unfold getTraceStateFromHeader amendedParseHeader
  apply List.map_congr_left
  intro kv hkv
  have hmem : '=' ∈ kv := by
    have := (List.mem_filter.mp hkv).2
    simpa using this
  obtain ⟨a, b, hsp⟩ : ∃ a b, splitAtFirst '=' kv = some (a, b) := by
    cases h : splitAtFirst '=' kv with
    | none => exact absurd ((splitAtFirst_eq_none_iff '=' kv).mp h) (by simpa using hmem)
    | some p =>
      obtain ⟨p1, p2⟩ := p
      exact ⟨p1, p2, rfl⟩
  cases hsp2 : splitAtFirst '=' b with
  | none =>
    have e2 : jsSplit '=' b = [b] :=
      jsSplit_of_not_mem '=' b ((splitAtFirst_eq_none_iff '=' b).mp hsp2)
    rw [jsSplit_of_splitAtFirst '=' hsp, e2, hsp]
    dsimp only
    rw [hsp2]
  | some q =>
    obtain ⟨q1, q2⟩ := q
    have e2 : jsSplit '=' b = q1 :: jsSplit '=' q2 := jsSplit_of_splitAtFirst '=' hsp2
    rw [jsSplit_of_splitAtFirst '=' hsp, e2, hsp]
    dsimp only
    rw [hsp2]

lemma char_eq_of_toNat {c d : Char} (h : c.toNat = d.toNat) : c = d :=
  Char.ext (UInt32.toNat.inj h)

lemma isKeyTailChar_iff_toNat (c : Char) :
    isKeyTailChar c = true ↔
      ((0x61 ≤ c.toNat ∧ c.toNat ≤ 0x7a) ∨ (0x30 ≤ c.toNat ∧ c.toNat ≤ 0x39) ∨
        c.toNat = 0x2d ∨ c.toNat = 0x5f ∨ c.toNat = 0x2a ∨ c.toNat = 0x2f) := by
  simp only [isKeyTailChar, isLcalpha, isDigitChar, Bool.or_eq_true,
    Bool.and_eq_true, decide_eq_true_eq]
  constructor
  · rintro (((((h | h) | h) | h) | h) | h)
    · exact Or.inl h
    · exact Or.inr (Or.inl h)
    · subst h; decide
    · subst h; decide
    · subst h; decide
    · subst h; decide
  · rintro (h | h | h | h | h | h)
    · exact Or.inl (Or.inl (Or.inl (Or.inl (Or.inl h))))
    · exact Or.inl (Or.inl (Or.inl (Or.inl (Or.inr h))))
    · exact Or.inl (Or.inl (Or.inl (Or.inr (char_eq_of_toNat (by rw [h]; rfl)))))
    · exact Or.inl (Or.inl (Or.inr (char_eq_of_toNat (by rw [h]; rfl))))
    · exact Or.inl (Or.inr (char_eq_of_toNat (by rw [h]; rfl)))
    · exact Or.inr (char_eq_of_toNat (by rw [h]; rfl))

lemma keyTail_not_ws {c : Char} (h : isKeyTailChar c = true) :
    isJsWhitespace c = false := by
  rw [isKeyTailChar_iff_toNat] at h
  rw [Bool.eq_false_iff]
  intro hws
  simp only [isJsWhitespace, Bool.or_eq_true, Bool.and_eq_true,
    decide_eq_true_eq] at hws
  omega

lemma lcalpha_keyTail {c : Char} (h : isLcalpha c = true) :
    isKeyTailChar c = true := by
  simp [isKeyTailChar, h]

lemma lc_or_digit_keyTail {c : Char} (h : (isLcalpha c || isDigitChar c) = true) :
    isKeyTailChar c = true := by
  rw [Bool.or_eq_true] at h
  rcases h with h | h
  · exact lcalpha_keyTail h
  · simp [isKeyTailChar, h]

lemma key_chars {k : List Char} (h : TRACE_KEY_REGEX_test k = true) :
    ∀ c ∈ k, isKeyTailChar c = true ∨ c = '@' := by
  intro c hc
  unfold TRACE_KEY_REGEX_test at h
  rw [Bool.or_eq_true] at h
  rcases h with h | h
  · rw [matchesSimpleKey_iff] at h
    obtain ⟨c0, cs, rfl, hlc, -, htail⟩ := h
    rcases List.mem_cons.mp hc with rfl | hcm
    · exact Or.inl (lcalpha_keyTail hlc)
    · exact Or.inl (htail c hcm)
  · rw [matchesMultiTenantKey_iff] at h
    obtain ⟨t, y, rfl, ht, hy⟩ := h
    obtain ⟨t0, ts, rfl, htc, -, htt⟩ := ht
    obtain ⟨y0, ys, rfl, hyc, -, hyt⟩ := hy
    rcases List.mem_append.mp hc with hm | hm
    · rcases List.mem_cons.mp hm with rfl | hm2
      · exact Or.inl (lc_or_digit_keyTail htc)
      · exact Or.inl (htt c hm2)
    · rcases List.mem_cons.mp hm with rfl | hm2
      · exact Or.inr rfl
      · rcases List.mem_cons.mp hm2 with rfl | hm3
        · exact Or.inl (lcalpha_keyTail hyc)
        · exact Or.inl (hyt c hm3)

lemma mem_of_getLast?_eq {l : List Char} {c : Char} (h : l.getLast? = some c) :
    c ∈ l := by
  obtain ⟨hne, heq⟩ := List.mem_getLast?_eq_getLast (by rw [h]; rfl)
  rw [heq]
  exact List.getLast_mem hne

lemma dropWhile_eq_self_of_head (p : Char → Bool) (s : List Char)
    (h : ∀ c, s.head? = some c → p c = false) :
    s.dropWhile p = s := by
  cases s with
  | nil => rfl
  | cons c rest => simp [List.dropWhile_cons, h c rfl]

lemma jsTrim_eq_self (s : List Char)
    (h1 : ∀ c, s.head? = some c → isJsWhitespace c = false)
    (h2 : ∀ c, s.getLast? = some c → isJsWhitespace c = false) :
    jsTrim s = s := by
  unfold jsTrim
  rw [dropWhile_eq_self_of_head _ _ h1,
    dropWhile_eq_self_of_head _ _ (fun c hc => h2 c (by rwa [← List.head?_reverse])),
    List.reverse_reverse]

lemma key_no_special {k : List Char} (h : TRACE_KEY_REGEX_test k = true) :
    ',' ∉ k ∧ '=' ∉ k ∧ jsTrim k = k := by
  have hall := key_chars h
  have hws : ∀ c ∈ k, isJsWhitespace c = false := by
    intro c hc
    rcases hall c hc with h' | rfl
    · exact keyTail_not_ws h'
    · rfl
  refine ⟨fun hm => ?_, fun hm => ?_, ?_⟩
  · rcases hall ',' hm with h' | h'
    · exact absurd h' (by decide)
    · exact absurd h' (by decide)
  · rcases hall '=' hm with h' | h'
    · exact absurd h' (by decide)
    · exact absurd h' (by decide)
  · exact jsTrim_eq_self k
      (fun c hc => hws c (List.mem_of_mem_head? (by rw [hc]; rfl)))
      (fun c hc => hws c (mem_of_getLast?_eq hc))

lemma valueChar_not_ws {c : Char} (h : isValueChar c = true) (hn : c ≠ ' ') :
    isJsWhitespace c = false := by
  have h2 := (isValueChar_iff_amended c).mp h
  simp only [amendedValueChar, Bool.and_eq_true, decide_eq_true_eq] at h2
  have hn2 : c.toNat ≠ 0x20 := fun he => hn (char_eq_of_toNat (by rw [he]; rfl))
  rw [Bool.eq_false_iff]
  intro hws
  simp only [isJsWhitespace, Bool.or_eq_true, Bool.and_eq_true,
    decide_eq_true_eq] at hws
  omega

lemma value_no_special {v : List Char} (h : TRACE_VALUE_REGEX_test v = true)
    (hh : v.head? ≠ some ' ') :
    ',' ∉ v ∧ '=' ∉ v ∧ jsTrim v = v := by
  obtain ⟨-, -, hall, hlast⟩ := (TRACE_VALUE_iff_amended v).mp h
  have hvc : ∀ c ∈ v, isValueChar c = true :=
    fun c hc => (isValueChar_iff_amended c).mpr (hall c hc)
  refine ⟨fun hm => absurd (hvc ',' hm) (by decide),
    fun hm => absurd (hvc '=' hm) (by decide), ?_⟩
  apply jsTrim_eq_self
  · intro c hc
    exact valueChar_not_ws (hvc c (List.mem_of_mem_head? (by rw [hc]; rfl)))
      (fun he => hh (he ▸ hc))
  · intro c hc
    exact valueChar_not_ws (hvc c (mem_of_getLast?_eq hc))
      (fun he => hlast (he ▸ hc))

lemma jsSplit_append (sep : Char) (a b : List Char) (h : sep ∉ a) :
    jsSplit sep (a ++ sep :: b) = a :: jsSplit sep b := by
  rw [jsSplit_eq_splitAtFirst, splitAtFirst_append sep a b h]

lemma jsSplit_jsJoin (sep : Char) :
    ∀ (parts : List (List Char)), parts ≠ [] → (∀ p ∈ parts, sep ∉ p) →
      jsSplit sep (jsJoin sep parts) = parts
  | [], h, _ => absurd rfl h
  | [p], _, hp => by
    rw [show jsJoin sep [p] = p from rfl]
    exact jsSplit_of_not_mem sep p (hp p (by simp))
  | p :: q :: rest, _, hp => by
    rw [show jsJoin sep (p :: q :: rest) = p ++ sep :: jsJoin sep (q :: rest) from rfl,
      jsSplit_append sep _ _ (hp p (by simp)),
      jsSplit_jsJoin sep (q :: rest) (by simp)
        (fun x hx => hp x (List.mem_cons_of_mem _ hx))]

/-- C10: when every entry of a TraceState has a grammar-valid key and a
grammar-valid value that does not begin with a space, formatting it as a
header and parsing that header returns the same TraceState, entries and order
intact. -/
theorem claim_C10_roundtrip (s : TraceState)
    (h : ∀ e ∈ s, TRACE_KEY_REGEX_test e.key = true ∧
      TRACE_VALUE_REGEX_test e.value = true ∧ e.value.head? ≠ some ' ') :
    getTraceStateFromHeader (getHeaderFromTraceState s) = s := by
  cases s with
  | nil => rfl
  | cons e0 es0 =>
    unfold getHeaderFromTraceState getTraceStateFromHeader
    have hnocomma : ∀ p ∈ (e0 :: es0 : TraceState).map
        (fun kv => kv.key ++ '=' :: kv.value), ',' ∉ p := by
      intro p hp
      obtain ⟨e, he, rfl⟩ := List.mem_map.mp hp
      obtain ⟨h1, h2, h3⟩ := h e he
      intro hm
      rcases List.mem_append.mp hm with hm1 | hm1
      · exact (key_no_special h1).1 hm1
      · rcases List.mem_cons.mp hm1 with he2 | hm2
        · exact absurd he2 (by decide)
        · exact (value_no_special h2 h3).1 hm2
    rw [jsSplit_jsJoin ',' _ (by simp) hnocomma]
    rw [List.filter_eq_self.mpr (by
      intro p hp
      obtain ⟨e, he, rfl⟩ := List.mem_map.mp hp
      simp)]
    rw [List.map_map]
    conv_rhs => rw [← List.map_id (e0 :: es0)]
    apply List.map_congr_left
    intro e he
    obtain ⟨h1, h2, h3⟩ := h e he
    obtain ⟨-, hke, hkt⟩ := key_no_special h1
    obtain ⟨-, hve, hvt⟩ := value_no_special h2 h3
    simp only [Function.comp_apply, id_eq]
    rw [jsSplit_append '=' _ _ hke, jsSplit_of_not_mem '=' _ hve]
    dsimp only
    rw [hkt, hvt]

/-- C10 witness. -/
theorem claim_C10_witness :
    getTraceStateFromHeader (getHeaderFromTraceState
        [⟨"b".toList, "2".toList⟩, ⟨"a".toList, "1 x".toList⟩])
      = [⟨"b".toList, "2".toList⟩, ⟨"a".toList, "1 x".toList⟩] :=
  claim_C10_roundtrip _ (by decide)

end TraceStateSpec
